import Mathlib

/-
A shallow embedding of the `irevoire/database` append-only key/value engine
(src/lib.rs, src/error.rs).

Bytes are modelled as `List Nat` (each element < 256 in real executions).
Files and readers are byte lists: reading consumes a prefix of the list,
writing appends. The only I/O failure that can arise when reading from an
in-memory buffer is an unexpected end of file, so the embedded
`io::Error` type has a single constructor.

Recursive loops from the source are embedded with an explicit fuel
argument so that every definition is executable and reduces
definitionally; the fuel supplied by each wrapper is an upper bound on
the number of iterations (each loop iteration consumes at least one byte
of input), so the out-of-fuel branch is never taken on the wrappers.
-/

namespace Db

/-- Byte strings (`Vec<u8>` / `&[u8]`). -/
abbrev Bytes := List Nat

/-- The constant `u32::MAX` as a natural number. -/
def u32Max : Nat := 2 ^ 32 - 1

/-- Big-endian encoding of `n as u32` (`(n as u32).to_be_bytes()`);
truncation `as u32` is reflected by the `% 256` on each digit. -/
def u32be (n : Nat) : Bytes :=
  [n / 2 ^ 24 % 256, n / 2 ^ 16 % 256, n / 2 ^ 8 % 256, n % 256]

/-- Decoding `u32::from_be_bytes([a,b,c,d])`. -/
def fromBE32 (a b c d : Nat) : Nat :=
  ((a * 256 + b) * 256 + c) * 256 + d

/-- The embedded `io::Error`: reading an in-memory buffer can only fail
with `ErrorKind::UnexpectedEof`. -/
inductive IOErr
  | unexpectedEof
deriving DecidableEq, Repr

/-- Embeds `read_u32` (lib.rs:377): read exactly 4 bytes, decode big-endian. -/
def read_u32 : Bytes → Except IOErr (Nat × Bytes)
  | a :: b :: c :: d :: rest => .ok (fromBE32 a b c d, rest)
  | _ => .error .unexpectedEof

/-- Embeds `read_bytes` (lib.rs:360): `read_exact` of `size` bytes. -/
def read_bytes (size : Nat) (s : Bytes) : Except IOErr (Bytes × Bytes) :=
  if size ≤ s.length then .ok (s.take size, s.drop size) else .error .unexpectedEof

/-- Embeds `read_entry` (lib.rs:348): a length-prefixed frame. -/
def read_entry (s : Bytes) : Except IOErr (Bytes × Bytes) :=
  match read_u32 s with
  | .error e => .error e
  | .ok (size, s) => read_bytes size s

/-- Embeds `skip_entry` (lib.rs:370): read the length, then `io::copy` through a
`take(size)` adaptor into a sink. `io::copy` does not fail when the
source is shorter than `size`; it simply consumes what is there. -/
def skip_entry (s : Bytes) : Except IOErr Bytes :=
  match read_u32 s with
  | .error e => .error e
  | .ok (size, s) => .ok (s.drop size)

/-- Embeds `write_entry` (lib.rs:340): two length-prefixed frames. -/
def write_entry (key value : Bytes) : Bytes :=
  u32be key.length ++ key ++ u32be value.length ++ value

/-- Strict lexicographic order on byte strings: the `Ord` instance of
`Vec<u8>`. -/
def lexLt : Bytes → Bytes → Bool
  | _, [] => false
  | [], _ :: _ => true
  | a :: as, b :: bs => if a < b then true else if a = b then lexLt as bs else false

/-- Lexicographic `<=` on byte strings (`new_key <= old_key`, lib.rs:77). -/
def lexLe (a b : Bytes) : Bool := lexLt a b || decide (a = b)

/-- The `BTreeMap<Vec<u8>, u64>` modelled as an association list kept sorted
by `lexLt`; `insert` replaces the value of an existing key. -/
def btInsert (k : Bytes) (v : Nat) : List (Bytes × Nat) → List (Bytes × Nat)
  | [] => [(k, v)]
  | (k', v') :: rest =>
    if lexLt k k' then (k, v) :: (k', v') :: rest
    else if k = k' then (k, v) :: rest
    else (k', v') :: btInsert k v rest

/-- Embeds `BTreeMap::get`. -/
def btLookup (k : Bytes) : List (Bytes × Nat) → Option Nat
  | [] => none
  | (k', v') :: rest => if k = k' then some v' else btLookup k rest

/-- Loop body of `Segment::get` (lib.rs:41-59). A failing `read_entry`
at the top of an iteration is an `UnexpectedEof` and ends the scan;
failures of the value read or of `skip_entry` are returned as errors. -/
def segGetAux (key : Bytes) : Nat → Bytes → Except IOErr (Option Bytes)
  | 0, _ => .error .unexpectedEof
  | fuel + 1, s =>
    match read_entry s with
    | .error _ => .ok none
    | .ok (k, s) =>
      if key = k then
        match read_entry s with
        | .error e => .error e
        | .ok (v, _) => .ok (some v)
      else
        match skip_entry s with
        | .error e => .error e
        | .ok s => segGetAux key fuel s

/-- Embeds `Segment::get` (lib.rs:37): scan the segment from the start. -/
def Segment.get (key : Bytes) (s : Bytes) : Except IOErr (Option Bytes) :=
  segGetAux key (s.length + 1) s

/-- Loop of `Segment::merge` (lib.rs:76-132). `newKey`/`oldKey` hold the
keys already read from each side, `news`/`olds` the unread remainders of
the two inputs, `out` the bytes written so far. `io::copy` of a whole
reader is modelled by appending the remaining bytes. -/
def mergeLoopAux : Nat → Bytes → Bytes → Bytes → Bytes → Bytes → Except IOErr Bytes
  | 0, _, _, _, _, _ => .error .unexpectedEof
  | fuel + 1, newKey, oldKey, news, olds, out =>
    if lexLe newKey oldKey then
      -- write new_key and its value (lib.rs:78-83)
      let out := out ++ u32be newKey.length ++ newKey
      match read_u32 news with
      | .error e => .error e
      | .ok (vsize, news) =>
        let out := out ++ u32be vsize ++ news.take vsize
        let news := news.drop vsize
        if newKey = oldKey then
          -- equal keys: drop old's value, advance old (lib.rs:85-99)
          match skip_entry olds with
          | .error e => .error e
          | .ok olds =>
            match read_entry olds with
            | .error _ =>
              -- old side exhausted (lib.rs:91-96)
              .ok (out ++ u32be newKey.length ++ newKey ++ news)
            | .ok (oldKey, olds) =>
              match read_entry news with
              | .error _ => .ok (out ++ u32be oldKey.length ++ oldKey ++ olds)
              | .ok (newKey, news) => mergeLoopAux fuel newKey oldKey news olds out
        else
          -- advance new (lib.rs:102-111)
          match read_entry news with
          | .error _ => .ok (out ++ u32be oldKey.length ++ oldKey ++ olds)
          | .ok (newKey, news) => mergeLoopAux fuel newKey oldKey news olds out
    else
      -- write old_key and its value (lib.rs:113-118)
      let out := out ++ u32be oldKey.length ++ oldKey
      match read_u32 olds with
      | .error e => .error e
      | .ok (vsize, olds) =>
        let out := out ++ u32be vsize ++ olds.take vsize
        let olds := olds.drop vsize
        -- advance old (lib.rs:121-130)
        match read_entry olds with
        | .error _ => .ok (out ++ u32be newKey.length ++ newKey ++ news)
        | .ok (oldKey, olds) => mergeLoopAux fuel newKey oldKey news olds out

/-- Embeds `Segment::merge` (lib.rs:64): the initial `read_entry_to_vec` of
each side propagates its error (lib.rs:73-74), then the merge loop runs. -/
def Segment.merge (news olds : Bytes) : Except IOErr Bytes :=
  match read_entry news with
  | .error e => .error e
  | .ok (newKey, news) =>
    match read_entry olds with
    | .error e => .error e
    | .ok (oldKey, olds) =>
      mergeLoopAux (news.length + olds.length + 1) newKey oldKey news olds []

/-- The `Error` enum of src/error.rs. `Io` carries the embedded
`io::Error`; `TempFile` is never produced by the pure model (tempfile
persistence failures are environment failures outside the embedding). -/
inductive DbError
  | Io (e : IOErr)
  | TempFile
  | KeyTooLarge (n : Nat)
  | ValueTooLarge (n : Nat)
deriving DecidableEq, Repr

/-- The `Database` struct (lib.rs:18). `dirty` holds the bytes of the
dirty log file, `segments` the byte contents of the segment files with
the head of the list being the front of the `VecDeque` (the oldest
segment); segment ids only influence file names and are not observable. -/
structure Database where
  dirty_thresholds : Nat
  memtable : List (Bytes × Nat)
  dirty : Bytes
  segments : List Bytes
deriving DecidableEq, Repr

/-- Outcome of a state-mutating operation: success, an `Err` return
together with the engine state it leaves behind, or a panic. -/
inductive StepResult
  | ok (db : Database)
  | err (e : DbError) (db : Database)
  | panic
deriving DecidableEq, Repr

/-- Loop of `init_memtable` (lib.rs:176-200): read a key size (EOF here
ends the scan), read the key, record its position, then skip the value
through `io::copy`+`take` (which cannot fail) while advancing the
position counter by the full declared entry size. -/
def initMemtableAux : Nat → List (Bytes × Nat) → Nat → Bytes → Except DbError (List (Bytes × Nat))
  | 0, _, _, _ => .error (.Io .unexpectedEof)
  | fuel + 1, memtable, pos, s =>
    match read_u32 s with
    | .error _ => .ok memtable
    | .ok (keySize, s) =>
      match read_bytes keySize s with
      | .error e => .error (.Io e)
      | .ok (key, s) =>
        match read_u32 s with
        | .error e => .error (.Io e)
        | .ok (valueSize, s) =>
          initMemtableAux fuel (btInsert key pos memtable)
            (pos + 4 * 2 + keySize + valueSize) (s.drop valueSize)

/-- Embeds `Database::init_memtable` (lib.rs:169). -/
def init_memtable (dirty : Bytes) : Except DbError (List (Bytes × Nat)) :=
  initMemtableAux (dirty.length + 1) [] 0 dirty

/-- Embeds `Database::new` (lib.rs:146): open a directory whose dirty file
holds `dirtyOnDisk`; the memtable is rebuilt from the dirty log, the
threshold is 1024 and the segment list starts empty (lib.rs:161) — the
segment files present in the directory are not read back. A fresh
directory corresponds to `dirtyOnDisk = []`. -/
def Database.new (dirtyOnDisk : Bytes) : Except DbError Database :=
  match init_memtable dirtyOnDisk with
  | .error e => .error e
  | .ok mt =>
    .ok { dirty_thresholds := 1024, memtable := mt, dirty := dirtyOnDisk, segments := [] }

/-- The `dirty_thresholds` setter (lib.rs:165). -/
def Database.setThreshold (db : Database) (t : Nat) : Database :=
  { db with dirty_thresholds := t }

/-- The write loop of `flush_dirty` (lib.rs:238-245): for each memtable
entry in key order, seek to `pos + 4 + key.len` in the dirty log, read
the value frame there and append `write_entry key value` to the new
segment. -/
def flushEntries (dirty : Bytes) : List (Bytes × Nat) → Except IOErr Bytes
  | [] => .ok []
  | (key, pos) :: rest =>
    match read_entry (dirty.drop (pos + 4 + key.length)) with
    | .error e => .error e
    | .ok (value, _) =>
      match flushEntries dirty rest with
      | .error e => .error e
      | .ok tail => .ok (write_entry key value ++ tail)

/-- Embeds `Database::merge_segment` (lib.rs:269): pop the two front segments
(`pop_front().unwrap()` panics when fewer than two are present), merge
the second-popped (newer) over the first-popped (older) and push the
result at the front. On a merge error the two popped segments stay
removed. -/
def Database.merge_segment (db : Database) : StepResult :=
  match db.segments with
  | old :: newer :: rest =>
    match Segment.merge newer old with
    | .ok merged => .ok { db with segments := merged :: rest }
    | .error e => .err (.Io e) { db with segments := rest }
  | _ => .panic

/-- Embeds `Database::flush_dirty` (lib.rs:230): write the memtable to a new
segment, clear the memtable and the dirty log, push the new segment at
the back, and merge the two oldest segments when more than 10 segments
are held. -/
def Database.flush_dirty (db : Database) : StepResult :=
  match flushEntries db.dirty db.memtable with
  | .error e => .err (.Io e) db
  | .ok seg =>
    if (db.segments ++ [seg]).length > 10 then
      Database.merge_segment
        { db with memtable := [], dirty := [], segments := db.segments ++ [seg] }
    else .ok { db with memtable := [], dirty := [], segments := db.segments ++ [seg] }

/-- Embeds `Database::add` (lib.rs:205): validate the key and value lengths
(the oversized-value branch returns `KeyTooLarge(key.len())`,
lib.rs:212), append the entry to the dirty log, record its position in
the memtable, and flush when the memtable size strictly exceeds the
threshold (lib.rs:223). -/
def Database.add (db : Database) (key value : Bytes) : StepResult :=
  if key.length > u32Max then .err (.KeyTooLarge key.length) db
  else if value.length > u32Max then .err (.KeyTooLarge key.length) db
  else if (btInsert key db.dirty.length db.memtable).length > db.dirty_thresholds then
    Database.flush_dirty { db with
      dirty := db.dirty ++ write_entry key value,
      memtable := btInsert key db.dirty.length db.memtable }
  else
    .ok { db with
      dirty := db.dirty ++ write_entry key value,
      memtable := btInsert key db.dirty.length db.memtable }

/-- Embeds `Database::get_from_segments` (lib.rs:298) on an explicit
newest-to-oldest list of segments. -/
def scanSegments (key : Bytes) : List Bytes → Except DbError (Option Bytes)
  | [] => .ok none
  | seg :: rest =>
    match Segment.get key seg with
    | .error e => .error (.Io e)
    | .ok (some v) => .ok (some v)
    | .ok none => scanSegments key rest

/-- Embeds `Database::get` (lib.rs:282): look the key up in the memtable and
read its value from the dirty log, falling back to the segments from the
most recent to the oldest. -/
def Database.get (db : Database) (key : Bytes) : Except DbError (Option Bytes) :=
  match btLookup key db.memtable with
  | none => scanSegments key db.segments.reverse
  | some index =>
    match read_entry (db.dirty.drop (index + 4 + key.length)) with
    | .error e => .error (.Io e)
    | .ok (value, _) => .ok (some value)

/-- Run a sequence of `add` operations, stopping at the first error or
panic. -/
def addAll (db : Database) : List (Bytes × Bytes) → StepResult
  | [] => .ok db
  | (k, v) :: rest =>
    match db.add k v with
    | .ok db' => addAll db' rest
    | r => r

/-- Concatenation of the `write_entry` encodings of a list of key/value
pairs: the byte contents of a log holding exactly these entries. -/
def encodeOps : List (Bytes × Bytes) → Bytes
  | [] => []
  | (k, v) :: rest => write_entry k v ++ encodeOps rest

/-- Greedy decoding of a byte string into complete key/value entries,
using the source's `read_entry` framing; the second component is the
undecodable leftover (empty for a well-formed segment). -/
def parseEntriesAux : Nat → Bytes → List (Bytes × Bytes) × Bytes
  | 0, s => ([], s)
  | fuel + 1, s =>
    match read_entry s with
    | .error _ => ([], s)
    | .ok (k, s') =>
      match read_entry s' with
      | .error _ => ([], s)
      | .ok (v, s'') =>
        let p := parseEntriesAux fuel s''
        ((k, v) :: p.1, p.2)

/-- Decode a segment's bytes into entries plus undecodable leftover. -/
def parseEntries (s : Bytes) : List (Bytes × Bytes) × Bytes :=
  parseEntriesAux (s.length + 1) s

/-- Key/value pairs whose lengths fit in a `u32`. -/
def validOp (p : Bytes × Bytes) : Prop :=
  p.1.length ≤ u32Max ∧ p.2.length ≤ u32Max

instance (p : Bytes × Bytes) : Decidable (validOp p) := by
  unfold validOp; infer_instance

/-- The memtable invariant: every recorded position points at a
readable value frame in the dirty log. -/
def DirtyOk (db : Database) : Prop :=
  ∀ p ∈ db.memtable, ∃ v r, read_entry (db.dirty.drop (p.2 + 4 + p.1.length)) = .ok (v, r)

/-- Keys of a memtable are strictly ascending (the `BTreeMap` ordering
invariant): every key strictly precedes every later key. -/
def StrictSortedKeys (mt : List (Bytes × Nat)) : Prop :=
  mt.Pairwise fun a b => lexLt a.1 b.1 = true

instance (mt : List (Bytes × Nat)) : Decidable (StrictSortedKeys mt) := by
  unfold StrictSortedKeys; infer_instance

/-- Replay of a sequence of adds at the memtable level: fold `btInsert`
over the entries, tracking the byte position each entry gets in the
dirty log. -/
def replayAux (mt : List (Bytes × Nat)) (pos : Nat) : List (Bytes × Bytes) → List (Bytes × Nat)
  | [] => mt
  | (k, v) :: rest => replayAux (btInsert k pos mt) (pos + 4 * 2 + k.length + v.length) rest

/-- A workload for the read-your-writes claim: with the threshold set
to 1, the four leading adds build two segments that share key `[2]`
(segment 0: `[1] ↦ [100], [2] ↦ [101]`; segment 1: `[2] ↦ [102],
[3] ↦ [103]`), and the eighteen remaining adds of fresh keys build nine
more segments, so that the eleventh flush triggers the automatic merge
of the two oldest segments. Key `[3]` is added exactly once. -/
def c1Ops : List (Bytes × Bytes) :=
  [([1], [100]), ([2], [101]), ([2], [102]), ([3], [103]),
   ([10], [0]), ([11], [0]), ([12], [0]), ([13], [0]), ([14], [0]), ([15], [0]),
   ([16], [0]), ([17], [0]), ([18], [0]), ([19], [0]), ([20], [0]), ([21], [0]),
   ([22], [0]), ([23], [0]), ([24], [0]), ([25], [0]), ([26], [0]), ([27], [0])]

/-- A freshly opened engine whose threshold was set to 1 through
`dirty_thresholds`. -/
def c1Start : Database := Database.setThreshold ⟨1024, [], [], []⟩ 1

/-- Newer merge input holding `[1] ↦ [10]` and `[2] ↦ [20]`: sorted,
distinct keys. -/
def c2New : Bytes := write_entry [1] [10] ++ write_entry [2] [20]

/-- Older merge input holding only `[1] ↦ [30]`. -/
def c2Old : Bytes := write_entry [1] [30]

/-- Newer merge input holding `[1] ↦ [9]` and `[2] ↦ [7]`. -/
def c4New : Bytes := write_entry [1] [9] ++ write_entry [2] [7]

/-- Older merge input binding key `[1]` to the value `[2]`. -/
def c4Old : Bytes := write_entry [1] [2]

end Db

namespace Db

/-- C1 (refuted): read-your-writes fails on the code. In the `c1Ops`
workload, `([3], [103])` is added once (operation index 3) and key `[3]`
is never added again, every operation succeeds, yet the final
`get [3]` returns an `UnexpectedEof` I/O error instead of
`Ok(Some([103]))`: the automatic merge of the two oldest segments
re-writes the already-written key `[2]` (lib.rs:92-93), mis-framing the
tail of the merged segment that holds key `[3]`. -/
theorem claim_C1 :
    c1Ops[3]? = some ([3], [103]) ∧
    (∀ p ∈ c1Ops.drop 4, p.1 ≠ [3]) ∧
    ∃ db, addAll c1Start c1Ops = .ok db ∧
      Database.get db [3] = .error (.Io .unexpectedEof) := by
  refine ⟨rfl, by decide, _, rfl, rfl⟩

/-- C2 (refuted): merging the well-formed segments `c2New` (keys `[1]`,
`[2]`, strictly ascending) and `c2Old` (key `[1]`) yields output whose
decodable entries carry keys `[1], [1]` — a repeated key, not strictly
ascending — together with an undecodable leftover, so the output is not
a well-formed segment. -/
theorem claim_C2 :
    ∃ out, Segment.merge c2New c2Old = .ok out ∧
      (parseEntries out).1.map Prod.fst = [[1], [1]] ∧ (parseEntries out).2 ≠ [] := by
  refine ⟨_, rfl, by decide, by decide⟩

/-- C4 (refuted): key `[1]` is present in both merge inputs, `c4Old`
binding it to the value `[2]`; the merged output nevertheless contains
the entry `([1], [2])` — the older segment's value re-appears as that
key's value (through the duplicated key frame of lib.rs:92-93). -/
theorem claim_C4 :
    ∃ out, Segment.merge c4New c4Old = .ok out ∧ ([1], [2]) ∈ (parseEntries out).1 := by
  refine ⟨_, rfl, by decide⟩

/-- C5 (amended): `Segment::merge` does not copy the non-empty side
through when the other side is empty, and does not succeed on two empty
inputs: whenever either input segment is empty it returns an
`UnexpectedEof` I/O error, because the initial `read_entry_to_vec` calls
(lib.rs:73-74) propagate their failure with `?`. -/
theorem claim_C5 (news olds : Bytes) (h : news = [] ∨ olds = []) :
    Segment.merge news olds = .error .unexpectedEof := by
  rcases h with h | h
  · subst h; rfl
  · subst h
    unfold Segment.merge
    cases hn : read_entry news with
    | error e => cases e; rfl
    | ok p => obtain ⟨k, s⟩ := p; rfl

/-- Witness for C5 at a concrete input: merging an empty newer segment
with a one-entry older segment errors. -/
theorem claim_C5_witness :
    Segment.merge [] (write_entry [1] [2]) = .error .unexpectedEof :=
  claim_C5 [] (write_entry [1] [2]) (Or.inl rfl)

/-- C5 (counterexample to the claim as stated): with both inputs empty,
`Segment::merge` returns an `UnexpectedEof` error rather than
succeeding with empty output. -/
theorem claim_C5_counterexample :
    Segment.merge [] [] = .error .unexpectedEof := rfl

/-- C6 (refuted in part): a value of `2^32` bytes (one more than
`u32::MAX`) with an empty key is rejected before any I/O with the engine
state unchanged, but the error is `KeyTooLarge(0)` — the key's length —
rather than `ValueTooLarge(2^32)`, because lib.rs:212 returns
`Error::KeyTooLarge(key.len())` in the oversized-value branch. -/
theorem claim_C6 (db : Database) :
    Database.add db [] (List.replicate (2 ^ 32) 0) = .err (.KeyTooLarge 0) db := by
  unfold Database.add
  norm_num [u32Max]

/-- C3 (counterexample to the claim as stated): with the threshold set
to 1, adding `[1] ↦ [5]` then `[2] ↦ [6]` succeeds and triggers a
flush, leaving an engine (dirty log empty, one segment) in which
`get [1]` returns `Some [5]`; cleanly re-opening the same directory
(`Database::new` reads the dirty file, here empty, and starts with no
segments, lib.rs:161) yields an engine in which `get [1]` returns
`None`. -/
theorem claim_C3_counterexample :
    addAll ⟨1, [], [], []⟩ [([1], [5]), ([2], [6])] =
      .ok ⟨1, [], [], [write_entry [1] [5] ++ write_entry [2] [6]]⟩ ∧
    Database.get ⟨1, [], [], [write_entry [1] [5] ++ write_entry [2] [6]]⟩ [1] = .ok (some [5]) ∧
    Database.new [] = .ok ⟨1024, [], [], []⟩ ∧
    Database.get ⟨1024, [], [], []⟩ [1] = .ok none :=
  ⟨rfl, rfl, rfl, rfl⟩

/-- C10 (confirmed): `merge_segment` panics exactly when the segment
list holds fewer than two segments (the `pop_front().unwrap()` calls of
lib.rs:271-272 run before any other effect), and a normal return leaves
the list exactly one segment shorter. -/
theorem claim_C10 (db : Database) :
    (db.merge_segment = .panic ↔ db.segments.length < 2) ∧
    ∀ db', db.merge_segment = .ok db' →
      2 ≤ db.segments.length ∧ db'.segments.length = db.segments.length - 1 := by
  obtain ⟨t, mt, d, segs⟩ := db
  cases segs with
  | nil => exact ⟨by simp [Database.merge_segment], by intro db' h; cases h⟩
  | cons s0 rest =>
    cases rest with
    | nil => exact ⟨by simp [Database.merge_segment], by intro db' h; cases h⟩
    | cons s1 rest' =>
      constructor
      · simp only [Database.merge_segment]
        cases Segment.merge s1 s0 <;> simp
      · intro db' h
        simp only [Database.merge_segment] at h
        cases hm : Segment.merge s1 s0 with
        | ok merged => rw [hm] at h; cases h; simp
        | error e => rw [hm] at h; cases h

/-- Witness for C10: on an engine holding exactly two one-entry
segments, `merge_segment` succeeds and the segment count drops from two
to one. -/
theorem claim_C10_witness :
    2 ≤ (⟨1024, [], [], [write_entry [1] [7], write_entry [2] [8]]⟩ : Database).segments.length ∧
    (⟨1024, [], [], [write_entry [1] [7] ++ write_entry [2] [8]]⟩ : Database).segments.length =
      (⟨1024, [], [], [write_entry [1] [7], write_entry [2] [8]]⟩ : Database).segments.length - 1 :=
  (claim_C10 ⟨1024, [], [], [write_entry [1] [7], write_entry [2] [8]]⟩).2
    ⟨1024, [], [], [write_entry [1] [7] ++ write_entry [2] [8]]⟩ rfl

end Db

namespace Db

theorem u32Max_eq : u32Max = 4294967295 := by norm_num [u32Max]

theorem u32be_eq (n : Nat) :
    u32be n = [n / 16777216 % 256, n / 65536 % 256, n / 256 % 256, n % 256] := by
  norm_num [u32be]

theorem read_u32_u32be (n : Nat) (s : Bytes) (h : n ≤ u32Max) :
    read_u32 (u32be n ++ s) = .ok (n, s) := by
  rw [u32Max_eq] at h
  rw [u32be_eq]
  have hn : fromBE32 (n / 16777216 % 256) (n / 65536 % 256) (n / 256 % 256) (n % 256) = n := by
    unfold fromBE32; omega
  show Except.ok (fromBE32 (n / 16777216 % 256) (n / 65536 % 256) (n / 256 % 256) (n % 256), s) =
    Except.ok (n, s)
  rw [hn]

theorem read_bytes_exact (l s : Bytes) : read_bytes l.length (l ++ s) = .ok (l, s) := by
  unfold read_bytes
  rw [if_pos (by simp), List.take_left, List.drop_left]

theorem read_entry_frame (l s : Bytes) (h : l.length ≤ u32Max) :
    read_entry (u32be l.length ++ l ++ s) = .ok (l, s) := by
  unfold read_entry
  rw [List.append_assoc, read_u32_u32be _ _ h]
  exact read_bytes_exact l s

theorem read_entry_frame' (l : Bytes) (h : l.length ≤ u32Max) :
    read_entry (u32be l.length ++ l) = .ok (l, []) := by
  have h2 := read_entry_frame l [] h
  rwa [List.append_nil] at h2

theorem read_entry_write_entry (k v rest : Bytes) (hk : k.length ≤ u32Max) :
    read_entry (write_entry k v ++ rest) = .ok (k, u32be v.length ++ v ++ rest) := by
  unfold write_entry
  have : u32be k.length ++ k ++ u32be v.length ++ v ++ rest =
      u32be k.length ++ k ++ (u32be v.length ++ v ++ rest) := by
    simp [List.append_assoc]
  rw [this, read_entry_frame _ _ hk]

theorem read_u32_ok {s : Bytes} {n : Nat} {s₁ : Bytes} (h : read_u32 s = .ok (n, s₁)) :
    ∃ a b c d, s = a :: b :: c :: d :: s₁ ∧ n = fromBE32 a b c d := by
  match s, h with
  | a :: b :: c :: d :: rest, h =>
    simp only [read_u32, Except.ok.injEq, Prod.mk.injEq] at h
    exact ⟨a, b, c, d, by rw [h.2], h.1.symm⟩

theorem read_bytes_ok {size : Nat} {s l s₁ : Bytes} (h : read_bytes size s = .ok (l, s₁)) :
    l = s.take size ∧ s₁ = s.drop size ∧ size ≤ s.length ∧ l.length = size := by
  unfold read_bytes at h
  split at h
  · cases h
    refine ⟨rfl, rfl, by assumption, ?_⟩
    simp [List.length_take]; omega
  · cases h

theorem read_entry_ok {s k s₁ : Bytes} (h : read_entry s = .ok (k, s₁)) :
    ∃ a b c d, s = a :: b :: c :: d :: (k ++ s₁) ∧ fromBE32 a b c d = k.length := by
  unfold read_entry at h
  cases hu : read_u32 s with
  | error e => rw [hu] at h; cases h
  | ok p =>
    obtain ⟨n, rest⟩ := p
    rw [hu] at h
    obtain ⟨a, b, c, d, hs, hn⟩ := read_u32_ok hu
    obtain ⟨hl, hr, hle, hlen⟩ := read_bytes_ok h
    refine ⟨a, b, c, d, ?_, by rw [← hn, hlen]⟩
    rw [hs, hl, hr, List.take_append_drop]

theorem u32be_fromBE32 {a b c d : Nat} (ha : a < 256) (hb : b < 256) (hc : c < 256)
    (hd : d < 256) : u32be (fromBE32 a b c d) = [a, b, c, d] := by
  rw [u32be_eq]
  unfold fromBE32
  simp only [List.cons.injEq, and_true]
  refine ⟨?_, ?_, ?_, ?_⟩ <;> omega

theorem fromBE32_lt {a b c d : Nat} (ha : a < 256) (hb : b < 256) (hc : c < 256)
    (hd : d < 256) : fromBE32 a b c d ≤ u32Max := by
  rw [u32Max_eq]; unfold fromBE32; omega

theorem read_entry_ok_reencode {s k s₁ : Bytes} (hb : ∀ x ∈ s, x < 256)
    (h : read_entry s = .ok (k, s₁)) : s = u32be k.length ++ k ++ s₁ := by
  obtain ⟨a, b, c, d, hs, hn⟩ := read_entry_ok h
  have ha : a < 256 := hb a (by rw [hs]; simp)
  have hb' : b < 256 := hb b (by rw [hs]; simp)
  have hc : c < 256 := hb c (by rw [hs]; simp)
  have hd : d < 256 := hb d (by rw [hs]; simp)
  rw [hs, ← hn, u32be_fromBE32 ha hb' hc hd]
  simp

theorem read_entry_ok_key_le {s k s₁ : Bytes} (hb : ∀ x ∈ s, x < 256)
    (h : read_entry s = .ok (k, s₁)) : k.length ≤ u32Max := by
  obtain ⟨a, b, c, d, hs, hn⟩ := read_entry_ok h
  rw [← hn]
  exact fromBE32_lt (hb a (by rw [hs]; simp)) (hb b (by rw [hs]; simp))
    (hb c (by rw [hs]; simp)) (hb d (by rw [hs]; simp))

theorem read_u32_ok_length {s : Bytes} {n : Nat} {s₁ : Bytes}
    (h : read_u32 s = .ok (n, s₁)) : s₁.length + 4 = s.length := by
  obtain ⟨a, b, c, d, hs, _⟩ := read_u32_ok h
  rw [hs]; simp only [List.length_cons]

theorem read_entry_ok_length {s k s₁ : Bytes} (h : read_entry s = .ok (k, s₁)) :
    s₁.length + 4 + k.length = s.length := by
  obtain ⟨a, b, c, d, hs, _⟩ := read_entry_ok h
  rw [hs]; simp only [List.length_cons, List.length_append]; all_goals omega

theorem skip_entry_ok_length {s s₁ : Bytes} (h : skip_entry s = .ok s₁) :
    s₁.length + 4 ≤ s.length := by
  unfold skip_entry at h
  cases hu : read_u32 s with
  | error e => rw [hu] at h; cases h
  | ok p =>
    obtain ⟨n, rest⟩ := p
    rw [hu] at h
    cases h
    have := read_u32_ok_length hu
    simp [List.length_drop]; omega

theorem read_u32_append {s : Bytes} {n : Nat} {s₁ : Bytes} (x : Bytes)
    (h : read_u32 s = .ok (n, s₁)) : read_u32 (s ++ x) = .ok (n, s₁ ++ x) := by
  obtain ⟨a, b, c, d, hs, hn⟩ := read_u32_ok h
  rw [hs, hn]; rfl

theorem read_entry_append {s k s₁ : Bytes} (x : Bytes)
    (h : read_entry s = .ok (k, s₁)) : read_entry (s ++ x) = .ok (k, s₁ ++ x) := by
  obtain ⟨a, b, c, d, hs, hn⟩ := read_entry_ok h
  rw [hs]
  show read_entry (a :: b :: c :: d :: (k ++ s₁ ++ x)) = _
  unfold read_entry read_u32
  show read_bytes (fromBE32 a b c d) (k ++ s₁ ++ x) = _
  rw [hn, List.append_assoc]
  exact read_bytes_exact k (s₁ ++ x)

theorem read_entry_drop_append {l : Bytes} {i : Nat} {k r : Bytes} (x : Bytes)
    (h : read_entry (l.drop i) = .ok (k, r)) :
    read_entry ((l ++ x).drop i) = .ok (k, r ++ x) := by
  have hi : i ≤ l.length := by
    have hlen := read_entry_ok_length h
    simp [List.length_drop] at hlen
    omega
  rw [List.drop_append_of_le_length hi]
  exact read_entry_append x h

end Db

namespace Db

theorem lexLt_irrefl (a : Bytes) : lexLt a a = false := by
  induction a with
  | nil => rfl
  | cons x xs ih => simp [lexLt, ih]

theorem lexLt_ne {a b : Bytes} (h : lexLt a b = true) : a ≠ b := by
  intro he
  rw [he, lexLt_irrefl] at h
  cases h

theorem lexLt_of_not_of_ne {a : Bytes} :
    ∀ {b : Bytes}, lexLt a b = false → a ≠ b → lexLt b a = true := by
  induction a with
  | nil =>
    intro b h hne
    cases b with
    | nil => exact absurd rfl hne
    | cons y ys => simp [lexLt] at h
  | cons x xs ih =>
    intro b h hne
    cases b with
    | nil => rfl
    | cons y ys =>
      simp only [lexLt] at h ⊢
      by_cases hxy : x < y
      · simp [hxy] at h
      · by_cases heq : x = y
        · subst heq
          simp only [Nat.lt_irrefl, if_false, if_pos rfl] at h ⊢
          exact ih h fun hh => hne (by rw [hh])
        · have hyx : y < x := by omega
          simp [hyx]

theorem lexLt_trans {a : Bytes} :
    ∀ {b c : Bytes}, lexLt a b = true → lexLt b c = true → lexLt a c = true := by
  induction a with
  | nil =>
    intro b c h1 h2
    cases b with
    | nil => simp [lexLt] at h1
    | cons y ys =>
      cases c with
      | nil => simp [lexLt] at h2
      | cons z zs => rfl
  | cons x xs ih =>
    intro b c h1 h2
    cases b with
    | nil => simp [lexLt] at h1
    | cons y ys =>
      cases c with
      | nil => simp [lexLt] at h2
      | cons z zs =>
        simp only [lexLt] at h1 h2 ⊢
        by_cases hxy : x < y
        · by_cases hyz : y < z
          · simp [show x < z by omega]
          · by_cases hyz2 : y = z
            · subst hyz2; simp [hxy]
            · simp [hyz, hyz2] at h2
        · by_cases hxy2 : x = y
          · subst hxy2
            simp only [Nat.lt_irrefl, if_false, if_pos rfl] at h1
            by_cases hyz : x < z
            · simp [hyz]
            · by_cases hyz2 : x = z
              · subst hyz2
                simp only [Nat.lt_irrefl, if_false, if_pos rfl] at h2 ⊢
                exact ih h1 h2
              · simp [hyz, hyz2] at h2
          · simp [hxy, hxy2] at h1

theorem btInsert_ne_nil (k : Bytes) (v : Nat) (l : List (Bytes × Nat)) :
    btInsert k v l ≠ [] := by
  cases l with
  | nil => simp [btInsert]
  | cons p rest =>
    obtain ⟨k', v'⟩ := p
    unfold btInsert
    split
    · simp
    · split <;> simp

theorem length_btInsert_le (k : Bytes) (v : Nat) (l : List (Bytes × Nat)) :
    (btInsert k v l).length ≤ l.length + 1 := by
  induction l with
  | nil => simp [btInsert]
  | cons p rest ih =>
    obtain ⟨k', v'⟩ := p
    unfold btInsert
    split
    · simp
    · split
      · simp
      · simpa using ih

theorem length_btInsert_fresh {k : Bytes} (v : Nat) {l : List (Bytes × Nat)}
    (h : btLookup k l = none) : (btInsert k v l).length = l.length + 1 := by
  induction l with
  | nil => simp [btInsert]
  | cons p rest ih =>
    obtain ⟨k', v'⟩ := p
    unfold btLookup at h
    unfold btInsert
    split
    · simp
    · split
      · next heq => rw [if_pos heq] at h; cases h
      · next hne =>
        rw [if_neg (by intro hh; exact hne hh)] at h
        simpa using ih h

theorem btLookup_btInsert_ne {k' k : Bytes} (v : Nat) (l : List (Bytes × Nat))
    (h : k' ≠ k) : btLookup k' (btInsert k v l) = btLookup k' l := by
  induction l with
  | nil => simp [btInsert, btLookup, h]
  | cons p rest ih =>
    obtain ⟨k'', v''⟩ := p
    unfold btInsert
    split
    · simp [btLookup, h]
    · split
      · next heq => subst heq; simp [btLookup, h]
      · simp only [btLookup]
        split
        · rfl
        · exact ih

theorem mem_btInsert {p : Bytes × Nat} {k : Bytes} {v : Nat} :
    ∀ {l : List (Bytes × Nat)}, p ∈ btInsert k v l → p = (k, v) ∨ p ∈ l := by
  intro l
  induction l with
  | nil => intro h; simp [btInsert] at h; exact Or.inl h
  | cons q rest ih =>
    obtain ⟨k', v'⟩ := q
    intro h
    unfold btInsert at h
    split at h
    · simpa using h
    · split at h
      · rcases List.mem_cons.mp h with h' | h'
        · exact Or.inl h'
        · exact Or.inr (List.mem_cons_of_mem _ h')
      · rcases List.mem_cons.mp h with h' | h'
        · exact Or.inr (by simp [h'])
        · rcases ih h' with h'' | h''
          · exact Or.inl h''
          · exact Or.inr (by simp [h''])

theorem strictSorted_btInsert (k : Bytes) (v : Nat) {l : List (Bytes × Nat)}
    (h : StrictSortedKeys l) : StrictSortedKeys (btInsert k v l) := by
  unfold StrictSortedKeys at *
  induction l with
  | nil => simp [btInsert]
  | cons q rest ih =>
    obtain ⟨k', v'⟩ := q
    rw [List.pairwise_cons] at h
    obtain ⟨hhead, htail⟩ := h
    unfold btInsert
    split
    · next hlt =>
      rw [List.pairwise_cons]
      refine ⟨?_, List.pairwise_cons.mpr ⟨hhead, htail⟩⟩
      intro q hq
      rcases List.mem_cons.mp hq with rfl | hq'
      · exact hlt
      · exact lexLt_trans hlt (hhead q hq')
    · next hnlt =>
      split
      · next heq =>
        subst heq
        rw [List.pairwise_cons]
        exact ⟨hhead, htail⟩
      · next hne =>
        have hk'k : lexLt k' k = true :=
          lexLt_of_not_of_ne (by simpa using hnlt) fun hh => hne hh
        rw [List.pairwise_cons]
        refine ⟨?_, ih htail⟩
        intro q hq
        rcases mem_btInsert hq with rfl | hq'
        · exact hk'k
        · exact hhead q hq'

end Db

namespace Db

theorem write_entry_length (k v : Bytes) :
    (write_entry k v).length = 8 + k.length + v.length := by
  simp [write_entry, u32be]
  omega

theorem parseEntriesAux_succ_err1 {fuel : Nat} {s : Bytes} {e : IOErr}
    (h : read_entry s = .error e) : parseEntriesAux (fuel + 1) s = ([], s) := by
  simp only [parseEntriesAux, h]

theorem parseEntriesAux_succ_err2 {fuel : Nat} {s k s' : Bytes} {e : IOErr}
    (h1 : read_entry s = .ok (k, s')) (h2 : read_entry s' = .error e) :
    parseEntriesAux (fuel + 1) s = ([], s) := by
  simp only [parseEntriesAux, h1, h2]

theorem parseEntriesAux_succ_ok {fuel : Nat} {s k s' v s'' : Bytes}
    (h1 : read_entry s = .ok (k, s')) (h2 : read_entry s' = .ok (v, s'')) :
    parseEntriesAux (fuel + 1) s =
      ((k, v) :: (parseEntriesAux fuel s'').1, (parseEntriesAux fuel s'').2) := by
  simp only [parseEntriesAux, h1, h2]

theorem parseEntriesAux_congr :
    ∀ (f₁ f₂ : Nat) (s : Bytes), s.length < f₁ → s.length < f₂ →
      parseEntriesAux f₁ s = parseEntriesAux f₂ s := by
  intro f₁
  induction f₁ with
  | zero => intro f₂ s h1 _; omega
  | succ a ih =>
    intro f₂ s h1 h2
    cases f₂ with
    | zero => omega
    | succ b =>
      cases hr : read_entry s with
      | error e => rw [parseEntriesAux_succ_err1 hr, parseEntriesAux_succ_err1 hr]
      | ok p =>
        obtain ⟨k, s'⟩ := p
        cases hr2 : read_entry s' with
        | error e =>
          rw [parseEntriesAux_succ_err2 hr hr2, parseEntriesAux_succ_err2 hr hr2]
        | ok q =>
          obtain ⟨v, s''⟩ := q
          have l1 := read_entry_ok_length hr
          have l2 := read_entry_ok_length hr2
          rw [parseEntriesAux_succ_ok hr hr2, parseEntriesAux_succ_ok hr hr2,
            ih b s'' (by omega) (by omega)]

theorem parseEntries_cons (k v tail : Bytes) (hk : k.length ≤ u32Max)
    (hv : v.length ≤ u32Max) :
    parseEntries (write_entry k v ++ tail) =
      ((k, v) :: (parseEntries tail).1, (parseEntries tail).2) := by
  unfold parseEntries
  rw [parseEntriesAux_succ_ok (read_entry_write_entry k v tail hk)
    (read_entry_frame v tail hv)]
  rw [parseEntriesAux_congr (write_entry k v ++ tail).length (tail.length + 1) tail
    (by rw [List.length_append, write_entry_length]; omega) (by omega)]

theorem parseEntries_encodeOps :
    ∀ pairs : List (Bytes × Bytes), (∀ p ∈ pairs, validOp p) →
      parseEntries (encodeOps pairs) = (pairs, []) := by
  intro pairs
  induction pairs with
  | nil => intro _; rfl
  | cons p rest ih =>
    intro h
    obtain ⟨k, v⟩ := p
    have hk := (h (k, v) (by simp)).1
    have hv := (h (k, v) (by simp)).2
    show parseEntries (write_entry k v ++ encodeOps rest) = _
    rw [parseEntries_cons k v _ hk hv, ih fun q hq => h q (by simp [hq])]

theorem flushEntries_spec (dirty : Bytes) (hb : ∀ x ∈ dirty, x < 256) :
    ∀ (mt : List (Bytes × Nat)) (seg : Bytes), (∀ p ∈ mt, p.1.length ≤ u32Max) →
      flushEntries dirty mt = .ok seg →
      ∃ pairs, seg = encodeOps pairs ∧ pairs.map Prod.fst = mt.map Prod.fst ∧
        ∀ q ∈ pairs, validOp q := by
  intro mt
  induction mt with
  | nil =>
    intro seg _ h
    cases h
    exact ⟨[], rfl, rfl, by simp⟩
  | cons p rest ih =>
    intro seg hkeys hfl
    obtain ⟨key, pos⟩ := p
    unfold flushEntries at hfl
    cases hread : read_entry (dirty.drop (pos + 4 + key.length)) with
    | error e => rw [hread] at hfl; cases hfl
    | ok pr =>
      obtain ⟨v, r⟩ := pr
      rw [hread] at hfl
      cases htail : flushEntries dirty rest with
      | error e => rw [htail] at hfl; cases hfl
      | ok tail =>
        rw [htail] at hfl
        cases hfl
        obtain ⟨pairs, hseg, hmap, hval⟩ :=
          ih tail (fun q hq => hkeys q (by simp [hq])) htail
        refine ⟨(key, v) :: pairs, by simp [encodeOps, hseg], by simp [hmap], ?_⟩
        intro q hq
        rcases List.mem_cons.mp hq with h' | h'
        · subst h'
          exact ⟨hkeys (key, pos) (by simp),
            read_entry_ok_key_le (fun x hx => hb x (List.mem_of_mem_drop hx)) hread⟩
        · exact hval q h'

/-- C9 (confirmed): framing round-trips. Encoding a key and a value with
`write_entry` and decoding the two frames with `read_entry` yields back
exactly the original byte strings (for lengths up to `u32::MAX`), and,
conversely, re-encoding any two frames decoded from a byte string
reproduces that byte string exactly. -/
theorem claim_C9 :
    (∀ key value rest : Bytes, key.length ≤ u32Max → value.length ≤ u32Max →
      read_entry (write_entry key value ++ rest) =
        .ok (key, u32be value.length ++ value ++ rest) ∧
      read_entry (u32be value.length ++ value ++ rest) = .ok (value, rest)) ∧
    (∀ s key value tail rest : Bytes, (∀ x ∈ s, x < 256) →
      read_entry s = .ok (key, tail) → read_entry tail = .ok (value, rest) →
      s = write_entry key value ++ rest) := by
  constructor
  · intro key value rest hk hv
    exact ⟨read_entry_write_entry key value rest hk, read_entry_frame value rest hv⟩
  · intro s key value tail rest hb h1 h2
    have hs := read_entry_ok_reencode hb h1
    have htail : ∀ x ∈ tail, x < 256 := fun x hx => hb x (by rw [hs]; simp [hx])
    have ht := read_entry_ok_reencode htail h2
    rw [hs, ht, write_entry]
    simp [List.append_assoc]

/-- Witness for C9: the round trip at the concrete entry
`[1] ↦ [2]`, and the byte-exact re-encoding of a concrete two-frame
byte string. -/
theorem claim_C9_witness :
    (read_entry (write_entry [1] [2] ++ []) =
        .ok ([1], u32be ([2] : Bytes).length ++ [2] ++ []) ∧
      read_entry (u32be ([2] : Bytes).length ++ [2] ++ []) = .ok ([2], [])) ∧
    ([0, 0, 0, 1, 5, 0, 0, 0, 1, 6] : Bytes) = write_entry [5] [6] ++ [] :=
  ⟨claim_C9.1 [1] [2] [] (by decide) (by decide),
    claim_C9.2 [0, 0, 0, 1, 5, 0, 0, 0, 1, 6] [5] [6] [0, 0, 0, 1, 6] [] (by decide)
      rfl rfl⟩

/-- C8 (confirmed): `btInsert` keeps the memtable strictly sorted with
distinct keys, and every segment produced by the write loop of
`flush_dirty` from such a memtable decodes, with no leftover bytes, into
entries whose keys are exactly the memtable's keys in order — strictly
ascending and pairwise distinct, each key appearing exactly once. -/
theorem claim_C8 :
    (∀ (k : Bytes) (v : Nat) (mt : List (Bytes × Nat)),
      StrictSortedKeys mt → StrictSortedKeys (btInsert k v mt)) ∧
    (∀ (db : Database) (seg : Bytes), (∀ x ∈ db.dirty, x < 256) →
      StrictSortedKeys db.memtable → (∀ p ∈ db.memtable, p.1.length ≤ u32Max) →
      flushEntries db.dirty db.memtable = .ok seg →
      (parseEntries seg).2 = [] ∧
      (parseEntries seg).1.map Prod.fst = db.memtable.map Prod.fst ∧
      ((parseEntries seg).1.map Prod.fst).Pairwise (fun a b => lexLt a b = true) ∧
      ((parseEntries seg).1.map Prod.fst).Nodup) := by
  constructor
  · exact fun k v mt h => strictSorted_btInsert k v h
  · intro db seg hb hsorted hkeys hfl
    obtain ⟨pairs, hseg, hmap, hval⟩ := flushEntries_spec db.dirty hb db.memtable seg hkeys hfl
    subst hseg
    rw [parseEntries_encodeOps pairs hval]
    have hpw : (pairs.map Prod.fst).Pairwise fun a b => lexLt a b = true := by
      rw [hmap]
      rw [List.pairwise_map]
      exact hsorted
    exact ⟨rfl, hmap, hpw, hpw.imp fun h => lexLt_ne h⟩

/-- Witness for C8: both parts at concrete inputs — inserting into a
sorted two-key memtable, and flushing a two-key memtable whose dirty log
holds `[1] ↦ [5]` and `[2] ↦ [6]`. -/
theorem claim_C8_witness :
    StrictSortedKeys (btInsert [1] 0 [([0], 5), ([2], 6)]) ∧
    ((parseEntries (write_entry [1] [5] ++ write_entry [2] [6])).2 = [] ∧
      (parseEntries (write_entry [1] [5] ++ write_entry [2] [6])).1.map Prod.fst =
        ([([1], 0), ([2], 10)] : List (Bytes × Nat)).map Prod.fst ∧
      ((parseEntries (write_entry [1] [5] ++ write_entry [2] [6])).1.map
          Prod.fst).Pairwise (fun a b => lexLt a b = true) ∧
      ((parseEntries (write_entry [1] [5] ++ write_entry [2] [6])).1.map Prod.fst).Nodup) :=
  ⟨claim_C8.1 [1] 0 [([0], 5), ([2], 6)] (by decide),
    claim_C8.2 ⟨1, [([1], 0), ([2], 10)], write_entry [1] [5] ++ write_entry [2] [6], []⟩
      (write_entry [1] [5] ++ write_entry [2] [6]) (by decide) (by decide) (by decide) rfl⟩

end Db

namespace Db

theorem initMemtableAux_step {fuel : Nat} {mt : List (Bytes × Nat)} {pos : Nat}
    {k v rest : Bytes} (hk : k.length ≤ u32Max) (hv : v.length ≤ u32Max) :
    initMemtableAux (fuel + 1) mt pos (write_entry k v ++ rest) =
      initMemtableAux fuel (btInsert k pos mt) (pos + 4 * 2 + k.length + v.length) rest := by
  have hassoc : write_entry k v ++ rest =
      u32be k.length ++ (k ++ (u32be v.length ++ (v ++ rest))) := by
    simp [write_entry, List.append_assoc]
  have h1 : read_u32 (write_entry k v ++ rest) =
      .ok (k.length, k ++ (u32be v.length ++ (v ++ rest))) := by
    rw [hassoc]; exact read_u32_u32be _ _ hk
  have h2 : read_bytes k.length (k ++ (u32be v.length ++ (v ++ rest))) =
      .ok (k, u32be v.length ++ (v ++ rest)) := read_bytes_exact _ _
  have h3 : read_u32 (u32be v.length ++ (v ++ rest)) = .ok (v.length, v ++ rest) :=
    read_u32_u32be _ _ hv
  simp only [initMemtableAux, h1, h2, h3, List.drop_left]

theorem initMemtableAux_encode :
    ∀ (entries : List (Bytes × Bytes)) (fuel : Nat) (mt : List (Bytes × Nat)) (pos : Nat),
      (∀ p ∈ entries, validOp p) → (encodeOps entries).length < fuel →
      initMemtableAux fuel mt pos (encodeOps entries) = .ok (replayAux mt pos entries) := by
  intro entries
  induction entries with
  | nil =>
    intro fuel mt pos _ hf
    cases fuel with
    | zero => omega
    | succ f => rfl
  | cons p rest ih =>
    intro fuel mt pos hval hf
    obtain ⟨k, v⟩ := p
    cases fuel with
    | zero => omega
    | succ f =>
      have hk := (hval (k, v) (by simp)).1
      have hv := (hval (k, v) (by simp)).2
      have hlen : (encodeOps ((k, v) :: rest)).length =
          8 + k.length + v.length + (encodeOps rest).length := by
        show (write_entry k v ++ encodeOps rest).length = _
        rw [List.length_append, write_entry_length]
      show initMemtableAux (f + 1) mt pos (write_entry k v ++ encodeOps rest) = _
      rw [initMemtableAux_step hk hv,
        ih f (btInsert k pos mt) (pos + 4 * 2 + k.length + v.length)
          (fun q hq => hval q (by simp [hq])) (by omega)]
      rfl

theorem init_memtable_encode (ops : List (Bytes × Bytes)) (hval : ∀ p ∈ ops, validOp p) :
    init_memtable (encodeOps ops) = .ok (replayAux [] 0 ops) :=
  initMemtableAux_encode ops ((encodeOps ops).length + 1) [] 0 hval (by omega)

theorem add_small {db : Database} {k v : Bytes} (hk : k.length ≤ u32Max)
    (hv : v.length ≤ u32Max)
    (hsize : (btInsert k db.dirty.length db.memtable).length ≤ db.dirty_thresholds) :
    db.add k v = .ok ⟨db.dirty_thresholds, btInsert k db.dirty.length db.memtable,
      db.dirty ++ write_entry k v, db.segments⟩ := by
  obtain ⟨t, mt, d, segs⟩ := db
  unfold Database.add
  rw [if_neg (Nat.not_lt.mpr hk), if_neg (Nat.not_lt.mpr hv),
    if_neg (Nat.not_lt.mpr hsize)]

theorem addAll_no_flush :
    ∀ (ops : List (Bytes × Bytes)) (db : Database), (∀ p ∈ ops, validOp p) →
      db.memtable.length + ops.length ≤ db.dirty_thresholds →
      addAll db ops = .ok ⟨db.dirty_thresholds, replayAux db.memtable db.dirty.length ops,
        db.dirty ++ encodeOps ops, db.segments⟩ := by
  intro ops
  induction ops with
  | nil =>
    intro db _ _
    obtain ⟨t, mt, d, segs⟩ := db
    simp [addAll, replayAux, encodeOps]
  | cons p rest ih =>
    intro db hval hsize
    obtain ⟨k, v⟩ := p
    have hk := (hval (k, v) (by simp)).1
    have hv := (hval (k, v) (by simp)).2
    have hle := length_btInsert_le k db.dirty.length db.memtable
    simp only [List.length_cons] at hsize
    have hins : (btInsert k db.dirty.length db.memtable).length ≤ db.dirty_thresholds := by
      omega
    have hpos : (db.dirty ++ write_entry k v).length =
        db.dirty.length + 4 * 2 + k.length + v.length := by
      rw [List.length_append, write_entry_length]; omega
    show addAll db ((k, v) :: rest) = _
    unfold addAll
    rw [add_small hk hv hins]
    show addAll ⟨db.dirty_thresholds, btInsert k db.dirty.length db.memtable,
      db.dirty ++ write_entry k v, db.segments⟩ rest = _
    rw [ih ⟨db.dirty_thresholds, btInsert k db.dirty.length db.memtable,
      db.dirty ++ write_entry k v, db.segments⟩ (fun q hq => hval q (by simp [hq]))
      (by simp only []; omega)]
    show StepResult.ok _ = _
    rw [hpos]
    show StepResult.ok ⟨db.dirty_thresholds,
      replayAux (btInsert k db.dirty.length db.memtable)
        (db.dirty.length + 4 * 2 + k.length + v.length) rest,
      db.dirty ++ write_entry k v ++ encodeOps rest, db.segments⟩ = _
    rw [List.append_assoc]
    rfl

end Db

namespace Db

/-- C3 (amended): durability across open holds exactly as long as no
flush occurred, because `Database::new` rebuilds the memtable from the
dirty log but starts with an empty segment list (lib.rs:161). For any
sequence of valid adds that cannot trigger a flush (at most
threshold-many adds), closing and re-opening the directory yields an
engine whose `get` agrees with the original on every key. -/
theorem claim_C3 (t : Nat) (ops : List (Bytes × Bytes)) (db : Database)
    (hval : ∀ p ∈ ops, validOp p) (hlen : ops.length ≤ t)
    (hrun : addAll ⟨t, [], [], []⟩ ops = .ok db) :
    ∃ db₂, Database.new db.dirty = .ok db₂ ∧ ∀ k, db₂.get k = db.get k := by
  have h := addAll_no_flush ops ⟨t, [], [], []⟩ hval (by simpa using hlen)
  rw [hrun] at h
  injection h with h
  subst h
  refine ⟨⟨1024, replayAux [] 0 ops, [] ++ encodeOps ops, []⟩, ?_, ?_⟩
  · show Database.new ([] ++ encodeOps ops) = _
    rw [List.nil_append]
    unfold Database.new
    rw [init_memtable_encode ops hval]
  · intro k
    rfl

/-- Witness for C3: one add of `[1] ↦ [5]` under threshold 2, then
re-open. -/
theorem claim_C3_witness :
    ∃ db₂, Database.new ((⟨2, [([1], 0)], write_entry [1] [5], []⟩ : Database).dirty) =
        .ok db₂ ∧
      ∀ k, db₂.get k = (⟨2, [([1], 0)], write_entry [1] [5], []⟩ : Database).get k :=
  claim_C3 2 [([1], [5])] ⟨2, [([1], 0)], write_entry [1] [5], []⟩ (by decide) (by decide)
    (by rfl)

theorem replayAux_length_fresh :
    ∀ (ops : List (Bytes × Bytes)) (mt : List (Bytes × Nat)) (pos : Nat),
      (ops.map Prod.fst).Nodup → (∀ p ∈ ops, btLookup p.1 mt = none) →
      (replayAux mt pos ops).length = mt.length + ops.length := by
  intro ops
  induction ops with
  | nil => intro mt pos _ _; simp [replayAux]
  | cons p rest ih =>
    intro mt pos hnodup hfresh
    obtain ⟨k, v⟩ := p
    simp only [List.map_cons, List.nodup_cons] at hnodup
    obtain ⟨hknotin, hnodup'⟩ := hnodup
    show (replayAux (btInsert k pos mt) (pos + 4 * 2 + k.length + v.length) rest).length = _
    rw [ih (btInsert k pos mt) (pos + 4 * 2 + k.length + v.length) hnodup' ?fresh]
    · rw [length_btInsert_fresh pos (hfresh (k, v) (by simp))]
      simp only [List.length_cons]
      omega
    case fresh =>
      intro q hq
      rw [btLookup_btInsert_ne pos mt
        fun he => hknotin (by rw [← he]; exact List.mem_map_of_mem Prod.fst hq)]
      exact hfresh q (by simp [hq])

theorem dirtyOk_add {t : Nat} {mt : List (Bytes × Nat)} {d : Bytes} {segs : List Bytes}
    {k v : Bytes} (hv : v.length ≤ u32Max) (h : DirtyOk ⟨t, mt, d, segs⟩) :
    DirtyOk ⟨t, btInsert k d.length mt, d ++ write_entry k v, segs⟩ := by
  intro p hp
  rcases mem_btInsert hp with rfl | hp'
  · refine ⟨v, [], ?_⟩
    show read_entry ((d ++ write_entry k v).drop (d.length + 4 + k.length)) = _
    have hsplit : d ++ write_entry k v =
        (d ++ (u32be k.length ++ k)) ++ (u32be v.length ++ v) := by
      simp [write_entry, List.append_assoc]
    have hlen : (d ++ (u32be k.length ++ k)).length = d.length + 4 + k.length := by
      simp [u32be]
      omega
    rw [hsplit, ← hlen, List.drop_left]
    exact read_entry_frame' v hv
  · obtain ⟨w, r, hw⟩ := h p hp'
    exact ⟨w, r ++ write_entry k v, read_entry_drop_append _ hw⟩

theorem flushEntries_total (dirty : Bytes) :
    ∀ mt : List (Bytes × Nat),
      (∀ p ∈ mt, ∃ v r, read_entry (dirty.drop (p.2 + 4 + p.1.length)) = .ok (v, r)) →
      ∃ seg, flushEntries dirty mt = .ok seg := by
  intro mt
  induction mt with
  | nil => intro _; exact ⟨[], rfl⟩
  | cons p rest ih =>
    intro h
    obtain ⟨key, pos⟩ := p
    obtain ⟨v, r, hread⟩ := h (key, pos) (by simp)
    obtain ⟨tail, htail⟩ := ih fun q hq => h q (by simp [hq])
    refine ⟨write_entry key v ++ tail, ?_⟩
    unfold flushEntries
    rw [hread, htail]

theorem addAll_overflow :
    ∀ (ops : List (Bytes × Bytes)) (db : Database), ops ≠ [] →
      (∀ p ∈ ops, validOp p) → (ops.map Prod.fst).Nodup →
      (∀ p ∈ ops, btLookup p.1 db.memtable = none) →
      db.memtable.length + ops.length = db.dirty_thresholds + 1 →
      db.segments = [] → DirtyOk db →
      ∃ db', addAll db ops = .ok db' ∧ db'.memtable = [] ∧ db'.segments.length = 1 := by
  intro ops
  induction ops with
  | nil => intro db h; exact absurd rfl h
  | cons p rest ih =>
    intro db _ hval hnodup hfresh hsize hsegs hdirty
    obtain ⟨t, mt, d, segs⟩ := db
    have hsegs' : segs = [] := hsegs
    subst hsegs'
    obtain ⟨k, v⟩ := p
    have hk := (hval (k, v) (by simp)).1
    have hv := (hval (k, v) (by simp)).2
    have hfreshk : btLookup k mt = none := hfresh (k, v) (by simp)
    have hinslen : (btInsert k d.length mt).length = mt.length + 1 :=
      length_btInsert_fresh d.length hfreshk
    simp only [List.map_cons, List.nodup_cons] at hnodup
    obtain ⟨hknotin, hnodup'⟩ := hnodup
    simp only [List.length_cons] at hsize
    have hdirty₁ : DirtyOk ⟨t, btInsert k d.length mt, d ++ write_entry k v, []⟩ :=
      dirtyOk_add hv hdirty
    cases rest with
    | nil =>
      simp only [List.length_nil] at hsize
      have hcond : (btInsert k d.length mt).length > t := by omega
      obtain ⟨seg, hflseg⟩ :=
        flushEntries_total (d ++ write_entry k v) (btInsert k d.length mt) hdirty₁
      refine ⟨⟨t, [], [], [seg]⟩, ?_, rfl, rfl⟩
      show addAll ⟨t, mt, d, []⟩ [(k, v)] = _
      unfold addAll
      unfold Database.add
      rw [if_neg (Nat.not_lt.mpr hk), if_neg (Nat.not_lt.mpr hv), if_pos hcond]
      have hflush : Database.flush_dirty
          ⟨t, btInsert k d.length mt, d ++ write_entry k v, []⟩ = .ok ⟨t, [], [], [seg]⟩ := by
        unfold Database.flush_dirty
        rw [hflseg]
        rfl
      rw [hflush]
      rfl
    | cons q rest' =>
      simp only [List.length_cons] at hsize
      have hins_le : (btInsert k d.length mt).length ≤ t := by omega
      obtain ⟨db', h1, h2, h3⟩ :=
        ih ⟨t, btInsert k d.length mt, d ++ write_entry k v, []⟩ (by simp)
          (fun r hr => hval r (by simp [hr])) hnodup'
          (fun r hr => by
            show btLookup r.1 (btInsert k d.length mt) = none
            rw [btLookup_btInsert_ne d.length mt
              fun he => hknotin (by rw [← he]; exact List.mem_map_of_mem Prod.fst hr)]
            exact hfresh r (by simp [hr]))
          (by simp only [List.length_cons]; omega) rfl hdirty₁
      refine ⟨db', ?_, h2, h3⟩
      show addAll ⟨t, mt, d, []⟩ ((k, v) :: q :: rest') = _
      unfold addAll
      rw [add_small hk hv hins_le]
      exact h1

end Db

namespace Db

theorem merge_segment_ok_memtable {db db' : Database} (h : db.merge_segment = .ok db') :
    db'.memtable = db.memtable := by
  unfold Database.merge_segment at h
  split at h
  · split at h
    · injection h with h
      subst h
      rfl
    · cases h
  · cases h

theorem flush_dirty_ok_memtable {db db' : Database} (h : db.flush_dirty = .ok db') :
    db'.memtable = [] := by
  unfold Database.flush_dirty at h
  split at h
  · cases h
  · split at h
    · rw [merge_segment_ok_memtable h]
    · injection h with h
      subst h
      rfl

/-- C7 (confirmed): the flush trigger is a strict greater-than test on
the post-insertion memtable size. A freshly opened engine has the
default threshold 1024; a successful `add` empties the memtable (the
observable effect of the flush it invokes) exactly when the memtable
size after inserting the new key strictly exceeds the threshold; and
from a fresh engine with threshold `t`, `t` distinct valid keys leave
`t` entries in the memtable and produce no segment, while `t + 1`
distinct keys flush exactly once — with the default threshold 1024 the
flush happens on the 1025th distinct key, not the 1024th. -/
theorem claim_C7 :
    (Database.new [] = .ok ⟨1024, [], [], []⟩) ∧
    (∀ (db : Database) (k v : Bytes) (db' : Database), db.add k v = .ok db' →
      (db'.memtable = [] ↔
        (btInsert k db.dirty.length db.memtable).length > db.dirty_thresholds)) ∧
    (∀ (t : Nat) (ops : List (Bytes × Bytes)), (∀ p ∈ ops, validOp p) →
      (ops.map Prod.fst).Nodup → ops.length ≤ t →
      ∃ db', addAll ⟨t, [], [], []⟩ ops = .ok db' ∧
        db'.memtable.length = ops.length ∧ db'.segments = []) ∧
    (∀ (t : Nat) (ops : List (Bytes × Bytes)), (∀ p ∈ ops, validOp p) →
      (ops.map Prod.fst).Nodup → ops.length = t + 1 →
      ∃ db', addAll ⟨t, [], [], []⟩ ops = .ok db' ∧
        db'.memtable = [] ∧ db'.segments.length = 1) := by
  refine ⟨rfl, ?_, ?_, ?_⟩
  · intro db k v db' h
    unfold Database.add at h
    split at h
    · cases h
    · split at h
      · cases h
      · split at h
        · next hcond =>
          exact ⟨fun _ => hcond, fun _ => flush_dirty_ok_memtable h⟩
        · next hcond =>
          injection h with h
          subst h
          constructor
          · intro hmt
            exact absurd hmt (btInsert_ne_nil k db.dirty.length db.memtable)
          · intro hc
            exact absurd hc hcond
  · intro t ops hval hnodup hlen
    refine ⟨⟨t, replayAux [] 0 ops, [] ++ encodeOps ops, []⟩,
      addAll_no_flush ops ⟨t, [], [], []⟩ hval (by simpa using hlen), ?_, rfl⟩
    show (replayAux [] 0 ops).length = ops.length
    rw [replayAux_length_fresh ops [] 0 hnodup fun p _ => rfl]
    simp
  · intro t ops hval hnodup hlen
    have hne : ops ≠ [] := by
      intro h
      rw [h] at hlen
      simp at hlen
    exact addAll_overflow ops ⟨t, [], [], []⟩ hne hval hnodup (fun p _ => rfl)
      (by simpa using hlen) rfl fun p hp => absurd hp (List.not_mem_nil p)

/-- Witness for C7: the single-step characterization on a one-key add
below threshold, two distinct keys under threshold 2 leave the memtable
at size two with no segment, and two distinct keys under threshold 1
flush into exactly one segment with an empty memtable. -/
theorem claim_C7_witness :
    ((⟨5, [([1], 0)], write_entry [1] [2], []⟩ : Database).memtable = [] ↔
      (btInsert [1] ([] : Bytes).length ([] : List (Bytes × Nat))).length > 5) ∧
    (∃ db', addAll ⟨2, [], [], []⟩ [([1], [0]), ([2], [0])] = .ok db' ∧
      db'.memtable.length = 2 ∧ db'.segments = []) ∧
    (∃ db', addAll ⟨1, [], [], []⟩ [([1], [0]), ([2], [0])] = .ok db' ∧
      db'.memtable = [] ∧ db'.segments.length = 1) :=
  ⟨claim_C7.2.1 ⟨5, [], [], []⟩ [1] [2] ⟨5, [([1], 0)], write_entry [1] [2], []⟩ rfl,
    claim_C7.2.2.1 2 [([1], [0]), ([2], [0])] (by decide) (by decide) (by decide),
    claim_C7.2.2.2 1 [([1], [0]), ([2], [0])] (by decide) (by decide) (by decide)⟩

end Db
